import Mathlib

/-!
Verification of the `medooze-event-emitter` Emitter class (`src/index.js`).

The repository's `Emitter` wraps an underlying per-instance notification
registry (Node's `EventEmitter`, an external dependency whose code is not part
of this repository) together with an identity-translation table (`#map`, a
`WeakMap` from original listener to its failure-isolating wrapper).

Modelling choices of the shallow embedding:

* Event names are `String`s; argument lists are `List Nat` (argument values
  are opaque, only their identity matters to the dispatcher).
* Original listeners are identified by a `Nat` id.  A listener's runtime
  behaviour is an environment `beh : Nat → Args → Option Nat`: invoking
  listener `l` with arguments `args` either returns normally
  (`beh l args = none`) or throws the error value `e`
  (`beh l args = some e`).
* Wrapper functions are JavaScript closures with object identity; we model
  that identity by allocating wrapper ids from a counter (`nextW`).
* `setTimeout(() => { throw e })` inside the wrapper is modelled by
  collecting the caught errors, in order, into a deferred-error list that
  `emit` returns out of band: those errors never travel through the
  `Except` error channel of `emit`, which is exactly the observable content
  of "the error is raised asynchronously and cannot be caught around
  `emit`".
* `emit` returns `Except String (Emitter × Bool × trace × deferred)`:
  the `Except.error` case is the synchronous `throw new Error(...)` for a
  stopped instance, the trace lists the listener invocations
  `(originalListener, args)` performed by the dispatch in order, and
  `deferred` lists the errors scheduled for asynchronous re-raise.
-/

abbrev Event := String

abbrev Args := List Nat

/-- Modelled from the spec (the underlying Node.js `EventEmitter` registry is
an external dependency, not part of this repository): one registered entry of
the ordered per-event listener list.  It stores the identity of the registered
wrapper function, the original listener the wrapper closes over, and whether
the entry was registered via `once` (self-removing before its invocation). -/
structure Entry where
  wrapper : Nat
  orig : Nat
  once : Bool
deriving DecidableEq, Repr

/-- Association-list lookup for the per-event listener lists: the listener
list of an event that was never touched is empty. -/
def rget : List (Event × List Entry) → Event → List Entry
  | [], _ => []
  | (k, v) :: t, e => if k = e then v else rget t e

/-- Association-list update for the per-event listener lists. -/
def rset : List (Event × List Entry) → Event → List Entry → List (Event × List Entry)
  | [], e, l => [(e, l)]
  | (k, v) :: t, e, l => if k = e then (k, l) :: t else (k, v) :: rset t e l

/-- Modelled from the spec (the underlying Node.js `EventEmitter` is an
external dependency, not part of this repository): an ordered collection,
per event name, of listener entries; supports append, prepend,
remove-by-reference, remove-all, and invoke-all-in-order. -/
structure Registry where
  events : List (Event × List Entry)
deriving DecidableEq, Repr

def Registry.get (r : Registry) (e : Event) : List Entry :=
  rget r.events e

def Registry.set (r : Registry) (e : Event) (l : List Entry) : Registry :=
  ⟨rset r.events e l⟩

/-- Modelled from the spec: `on` delegates to the registry, which "appends a
persistent entry" to the event's ordered listener list. -/
def Registry.append (r : Registry) (e : Event) (ent : Entry) : Registry :=
  r.set e (r.get e ++ [ent])

/-- Modelled from the spec: `prependListener` "inserts the entry at the head
of that event's invocation order instead of the tail". -/
def Registry.prepend (r : Registry) (e : Event) (ent : Entry) : Registry :=
  r.set e (ent :: r.get e)

/-- Remove the first element satisfying `p`; the rest of the list is kept
unchanged.  Used for remove-by-reference and for `once` self-removal. -/
def removeFirstP (p : Entry → Bool) : List Entry → List Entry
  | [] => []
  | x :: t => if p x then t else x :: removeFirstP p t

/-- Modelled from the spec: remove-by-reference.  Removal is keyed by the
wrapper function that was actually registered (`off` passes
`#map.get(listener)`); P4 fixes that the first (earliest-registered)
occurrence is removed.  "If the listener was never registered (no wrapper
found), removal from the underlying registry is attempted with an absent
value and has no effect — this must not error." -/
def Registry.removeListener (r : Registry) (e : Event) (w : Option Nat) : Registry :=
  match w with
  | none => r
  | some w => r.set e (removeFirstP (fun x => x.wrapper == w) (r.get e))

/-- Modelled from the spec: `stop` first "removes every listener for every
event" via the registry's remove-all operation. -/
def Registry.removeAll (_ : Registry) : Registry :=
  ⟨[]⟩

/-- Modelled from the spec: one dispatch round over the snapshot of the
event's listener list taken when `emit` started.  Each entry's wrapper is
invoked in order with the emitted arguments; a `once` entry self-removes
from the (live) registry immediately before its invocation; the wrapper runs
the original listener in a protected region and, if it throws, schedules the
error for asynchronous re-raise (collected in the third component) and lets
dispatch continue.  Returns the updated registry, the invocation trace, and
the deferred errors in order. -/
def Registry.dispatch (beh : Nat → Args → Option Nat) (e : Event) (args : Args) :
    List Entry → Registry → Registry × List (Nat × Args) × List Nat
  | [], r => (r, [], [])
  | ent :: rest, r =>
    let r1 := if ent.once then r.set e (removeFirstP (fun x => x == ent) (r.get e)) else r
    let k := Registry.dispatch beh e args rest r1
    (k.1, (ent.orig, args) :: k.2.1,
      match beh ent.orig args with
      | some err => err :: k.2.2
      | none => k.2.2)

/-- Modelled from the spec: `emit` on the registry snapshots the event's
current listener list, dispatches over the snapshot, and reports whether at
least one listener was invoked. -/
def Registry.emitR (beh : Nat → Args → Option Nat) (e : Event) (args : Args)
    (r : Registry) : Registry × Bool × List (Nat × Args) × List Nat :=
  let snapshot := r.get e
  let k := Registry.dispatch beh e args snapshot r
  (k.1, !snapshot.isEmpty, k.2.1, k.2.2)

/-- The `Emitter` class of `src/index.js`: a nullable underlying registry
(`#emitter`, `null` once stopped) and the identity-translation table
(`#map`, declared `WeakMap<any,any>`, never reassigned in this revision),
plus the wrapper-identity allocation counter of the model. -/
structure Emitter where
  emitter : Option Registry
  map : Option (List (Nat × Nat))
  nextW : Nat
deriving DecidableEq, Repr

/-- `WeakMap.get`: first binding of the original listener, if any. -/
def mget : List (Nat × Nat) → Nat → Option Nat
  | [], _ => none
  | (k, v) :: t, l => if k = l then some v else mget t l

/-- `this.#map.get(listener)` lifted over the nullable table. -/
def Emitter.mapGet (E : Emitter) (l : Nat) : Option Nat :=
  match E.map with
  | none => none
  | some m => mget m l

/-- The constructor: fresh registry (max-listener limit removal has no
observable counterpart in the model) and fresh empty wrapper map. -/
def Emitter.new : Emitter :=
  { emitter := some ⟨[]⟩, map := some [], nextW := 0 }

/-- `#wrap(listener)`: return the memoized wrapper for `listener` if the
table already holds one; otherwise create a fresh wrapper (fresh identity
from `nextW`) that invokes `listener` in a try/catch re-raising errors
asynchronously, record it in the table, and return it. -/
def Emitter.wrap (E : Emitter) (l : Nat) : Emitter × Nat :=
  match E.mapGet l with
  | some w => (E, w)
  | none =>
      let w := E.nextW
      ({ E with map := Option.map (fun m => (l, w) :: m) E.map, nextW := E.nextW + 1 }, w)

/-- `emit(event, ...args)`: throws synchronously if the instance has been
stopped; otherwise delegates to the registry's dispatch.  The `Bool` is the
underlying emitter's "had listeners" result; the trace and deferred-error
list expose the dispatch behaviour to the specification. -/
def Emitter.emit (beh : Nat → Args → Option Nat) (E : Emitter) (e : Event) (args : Args) :
    Except String (Emitter × Bool × List (Nat × Args) × List Nat) :=
  match E.emitter with
  | none => .error "emitter has been stopped"
  | some reg =>
      let k := reg.emitR beh e args
      .ok ({ E with emitter := some k.1 }, k.2.1, k.2.2.1, k.2.2.2)

/-- `on(event, listener)`: `this.#emitter?.on(event, this.#wrap(listener))`.
Optional chaining short-circuits: when stopped, `#wrap` is not evaluated and
the call is a no-op; the instance is returned for chaining. -/
def Emitter.on (E : Emitter) (e : Event) (l : Nat) : Emitter :=
  match E.emitter with
  | none => E
  | some reg =>
      let p := E.wrap l
      { p.1 with emitter := some (reg.append e ⟨p.2, l, false⟩) }

/-- `prependListener(event, listener)`: like `on` but inserting at the head
of the event's invocation order. -/
def Emitter.prependListener (E : Emitter) (e : Event) (l : Nat) : Emitter :=
  match E.emitter with
  | none => E
  | some reg =>
      let p := E.wrap l
      { p.1 with emitter := some (reg.prepend e ⟨p.2, l, false⟩) }

/-- `once(event, listener)`: registers the wrapper with self-removing
one-shot semantics (the appended entry carries the `once` flag). -/
def Emitter.once (E : Emitter) (e : Event) (l : Nat) : Emitter :=
  match E.emitter with
  | none => E
  | some reg =>
      let p := E.wrap l
      { p.1 with emitter := some (reg.append e ⟨p.2, l, true⟩) }

/-- `off(event, listener)`: `this.#emitter?.removeListener(event,
this.#map.get(listener))`.  When stopped, a no-op; otherwise removal keyed
by the memoized wrapper (which may be absent). -/
def Emitter.off (E : Emitter) (e : Event) (l : Nat) : Emitter :=
  match E.emitter with
  | none => E
  | some reg => { E with emitter := some (reg.removeListener e (E.mapGet l)) }

/-- `stop()`: `this.#emitter?.removeAllListeners(); this.#emitter = null;`.
Note that this revision does not reassign `#map`. -/
def Emitter.stop (E : Emitter) : Emitter :=
  let _ := Option.map Registry.removeAll E.emitter
  { E with emitter := none }

/-- The current listener list of an event, as observable through dispatch
(empty once stopped). -/
def Emitter.listOf (E : Emitter) (e : Event) : List Entry :=
  match E.emitter with
  | none => []
  | some reg => reg.get e

/-- `emit` as a state transformer (the state is unchanged when `emit`
throws), used to close the reachable-state relation under emission. -/
def Emitter.emitState (beh : Nat → Args → Option Nat) (E : Emitter) (e : Event)
    (args : Args) : Emitter :=
  match E.emit beh e args with
  | .ok k => k.1
  | .error _ => E

/-! ### Basic lemmas about the association list of per-event lists -/

theorem rget_rset_self (m : List (Event × List Entry)) (e : Event) (l : List Entry) :
    rget (rset m e l) e = l := by
  induction m with
  | nil => simp [rget, rset]
  | cons kv t ih =>
      obtain ⟨k, v⟩ := kv
      by_cases h : k = e
      · simp [rget, rset, h]
      · simp [rget, rset, h, ih]

theorem rget_rset_other (m : List (Event × List Entry)) (e e' : Event) (l : List Entry)
    (h : e' ≠ e) : rget (rset m e l) e' = rget m e' := by
  induction m with
  | nil => simp [rget, rset, Ne.symm h]
  | cons kv t ih =>
      obtain ⟨k, v⟩ := kv
      by_cases hk : k = e
      · subst hk
        simp [rget, rset, Ne.symm h]
      · simp [rget, rset, hk, ih]

theorem Registry.get_set_self (r : Registry) (e : Event) (l : List Entry) :
    (r.set e l).get e = l :=
  rget_rset_self r.events e l

theorem Registry.get_set_other (r : Registry) (e e' : Event) (l : List Entry)
    (h : e' ≠ e) : (r.set e l).get e' = r.get e' :=
  rget_rset_other r.events e e' l h

/-! ### Lemmas about first-occurrence removal -/

theorem removeFirstP_sublist (p : Entry → Bool) (l : List Entry) :
    (removeFirstP p l).Sublist l := by
  induction l with
  | nil => simp [removeFirstP]
  | cons x t ih =>
      by_cases h : p x
      · simp [removeFirstP, h]
      · simpa [removeFirstP, h] using List.Sublist.cons₂ x ih

theorem removeFirstP_append_left (p : Entry → Bool) (A B : List Entry)
    (h : ∀ a ∈ A, p a = false) :
    removeFirstP p (A ++ B) = A ++ removeFirstP p B := by
  induction A with
  | nil => simp
  | cons x t ih =>
      have hx : p x = false := h x (by simp)
      simp only [List.cons_append, removeFirstP, hx]
      simp only [Bool.false_eq_true, if_false, List.cons.injEq, true_and]
      exact ih fun a ha => h a (by simp [ha])

theorem removeFirstP_cons_true (p : Entry → Bool) (x : Entry) (t : List Entry)
    (h : p x = true) : removeFirstP p (x :: t) = t := by
  simp [removeFirstP, h]

/-! ### Characterization of one dispatch round -/

/-- The evolution of the emitted event's own listener list along a dispatch
round: each processed `once` entry removes its first occurrence from the
live list. -/
def onceList : List Entry → List Entry → List Entry
  | [], l => l
  | ent :: rest, l =>
      onceList rest (if ent.once then removeFirstP (fun x => x == ent) l else l)

theorem dispatch_trace (beh : Nat → Args → Option Nat) (e : Event) (args : Args)
    (s : List Entry) (r : Registry) :
    (Registry.dispatch beh e args s r).2.1 = s.map (fun ent => (ent.orig, args)) := by
  induction s generalizing r with
  | nil => simp [Registry.dispatch]
  | cons ent rest ih => simp [Registry.dispatch, ih]

theorem dispatch_errs (beh : Nat → Args → Option Nat) (e : Event) (args : Args)
    (s : List Entry) (r : Registry) :
    (Registry.dispatch beh e args s r).2.2 =
      s.filterMap (fun ent => beh ent.orig args) := by
  induction s generalizing r with
  | nil => simp [Registry.dispatch]
  | cons ent rest ih =>
      simp only [Registry.dispatch, List.filterMap_cons, ih]
      cases beh ent.orig args <;> simp

theorem dispatch_get_self (beh : Nat → Args → Option Nat) (e : Event) (args : Args)
    (s : List Entry) (r : Registry) :
    ((Registry.dispatch beh e args s r).1).get e = onceList s (r.get e) := by
  induction s generalizing r with
  | nil => simp [Registry.dispatch, onceList]
  | cons ent rest ih =>
      simp only [Registry.dispatch, onceList]
      by_cases h : ent.once
      · simp [h, ih, Registry.get_set_self]
      · simp [h, ih]

theorem dispatch_get_other (beh : Nat → Args → Option Nat) (e e' : Event) (args : Args)
    (s : List Entry) (r : Registry) (h : e' ≠ e) :
    ((Registry.dispatch beh e args s r).1).get e' = r.get e' := by
  induction s generalizing r with
  | nil => simp [Registry.dispatch]
  | cons ent rest ih =>
      simp only [Registry.dispatch]
      by_cases ho : ent.once
      · simp [ho, ih, Registry.get_set_other _ _ _ _ h]
      · simp [ho, ih]

theorem onceList_acc (s acc : List Entry) (hacc : ∀ a ∈ acc, a.once = false) :
    onceList s (acc ++ s) = acc ++ s.filter (fun ent => !ent.once) := by
  induction s generalizing acc with
  | nil => simp [onceList]
  | cons ent rest ih =>
      simp only [onceList]
      rcases h : ent.once with _ | _
      · rw [if_neg (by simp)]
        have hstep : acc ++ ent :: rest = (acc ++ [ent]) ++ rest := by simp
        rw [hstep, ih (acc ++ [ent])]
        · rw [List.filter_cons_of_pos (by simp [h])]
          simp
        · intro a ha
          rcases List.mem_append.mp ha with hA | hE
          · exact hacc a hA
          · rw [List.mem_singleton.mp hE]
            exact h
      · have hrm : removeFirstP (fun x => x == ent) (acc ++ ent :: rest) =
            acc ++ rest := by
          rw [removeFirstP_append_left]
          · rw [removeFirstP_cons_true]
            simp
          · intro a ha
            have hne : a ≠ ent := by
              intro hEq
              have hf := hacc a ha
              rw [hEq, h] at hf
              simp at hf
            simpa using hne
        rw [if_pos rfl, hrm, ih acc hacc,
          List.filter_cons_of_neg (by simp [h])]

theorem onceList_self (s : List Entry) :
    onceList s s = s.filter (fun ent => !ent.once) := by
  simpa using onceList_acc s [] (by simp)

/-! ### Characterization of `Registry.emitR` -/

theorem emitR_trace (beh : Nat → Args → Option Nat) (e : Event) (args : Args)
    (r : Registry) :
    (r.emitR beh e args).2.2.1 = (r.get e).map (fun ent => (ent.orig, args)) := by
  simp [Registry.emitR, dispatch_trace]

theorem emitR_errs (beh : Nat → Args → Option Nat) (e : Event) (args : Args)
    (r : Registry) :
    (r.emitR beh e args).2.2.2 = (r.get e).filterMap (fun ent => beh ent.orig args) := by
  simp [Registry.emitR, dispatch_errs]

theorem emitR_bool (beh : Nat → Args → Option Nat) (e : Event) (args : Args)
    (r : Registry) :
    (r.emitR beh e args).2.1 = !(r.get e).isEmpty := by
  simp [Registry.emitR]

theorem emitR_get_self (beh : Nat → Args → Option Nat) (e : Event) (args : Args)
    (r : Registry) :
    ((r.emitR beh e args).1).get e = (r.get e).filter (fun ent => !ent.once) := by
  simp [Registry.emitR, dispatch_get_self, onceList_self]

theorem emitR_get_other (beh : Nat → Args → Option Nat) (e e' : Event) (args : Args)
    (r : Registry) (h : e' ≠ e) :
    ((r.emitR beh e args).1).get e' = r.get e' := by
  simp [Registry.emitR, dispatch_get_other _ _ _ _ _ _ h]

/-! ### Unfolding lemmas for the Emitter operations on a live instance -/

theorem emit_ok_of_live (E : Emitter) (reg : Registry) (hE : E.emitter = some reg)
    (beh : Nat → Args → Option Nat) (e : Event) (args : Args) :
    E.emit beh e args =
      Except.ok ({ E with emitter := some (reg.emitR beh e args).1 },
        (reg.emitR beh e args).2.1, (reg.emitR beh e args).2.2.1,
        (reg.emitR beh e args).2.2.2) := by
  simp [Emitter.emit, hE]

theorem on_of_live (E : Emitter) (reg : Registry) (hE : E.emitter = some reg)
    (e : Event) (l : Nat) :
    E.on e l = { (E.wrap l).1 with emitter := some (reg.append e ⟨(E.wrap l).2, l, false⟩) } := by
  simp [Emitter.on, hE]

theorem prepend_of_live (E : Emitter) (reg : Registry) (hE : E.emitter = some reg)
    (e : Event) (l : Nat) :
    E.prependListener e l =
      { (E.wrap l).1 with emitter := some (reg.prepend e ⟨(E.wrap l).2, l, false⟩) } := by
  simp [Emitter.prependListener, hE]

theorem once_of_live (E : Emitter) (reg : Registry) (hE : E.emitter = some reg)
    (e : Event) (l : Nat) :
    E.once e l = { (E.wrap l).1 with emitter := some (reg.append e ⟨(E.wrap l).2, l, true⟩) } := by
  simp [Emitter.once, hE]

theorem off_of_live (E : Emitter) (reg : Registry) (hE : E.emitter = some reg)
    (e : Event) (l : Nat) :
    E.off e l = { E with emitter := some (reg.removeListener e (E.mapGet l)) } := by
  simp [Emitter.off, hE]

theorem wrap_emitter (E : Emitter) (l : Nat) : (E.wrap l).1.emitter = E.emitter := by
  unfold Emitter.wrap
  cases E.mapGet l <;> rfl

/-! ### Claim theorems -/

/-- C1: for every Emitter on which `stop()` has been called, every
subsequent `emit(event, ...args)` raises the "emitter has been stopped"
error synchronously to the caller — for every event name, argument list and
listener environment — and no listener is invoked by that call (in the model
an `Except.error` result carries no invocation trace at all).  The second
conjunct shows the failing `emit` leaves the stopped state unchanged, so the
same error is raised on every later `emit` as well. -/
theorem emitAfterStopRaises (E : Emitter) (beh : Nat → Args → Option Nat)
    (e : Event) (args : Args) :
    (E.stop).emit beh e args = Except.error "emitter has been stopped" ∧
    (E.stop).emitState beh e args = E.stop :=
  ⟨rfl, rfl⟩

/-- C3: for every Emitter on which `stop()` has been called, every
subsequent `on`, `once`, `prependListener` or `off` call — with any event
and any listener — returns the instance itself with its observable state
completely unchanged, and raises no error (the operations are total). -/
theorem opsAfterStopAreNoOps (E : Emitter) (e : Event) (l : Nat) :
    (E.stop).on e l = E.stop ∧ (E.stop).once e l = E.stop ∧
    (E.stop).prependListener e l = E.stop ∧ (E.stop).off e l = E.stop :=
  ⟨rfl, rfl, rfl, rfl⟩

/-- C9 (amended): `stop()` is idempotent — a second (or any later) call
raises no error (the operation is total) and leaves the instance in exactly
the same observable state as the first call: the underlying registry is
released to the absent state and every listener list is empty.  The
identity-translation table, however, is retained by this revision of
`stop()` (see the counterexample), though it is unobservable afterwards. -/
theorem stopIsIdempotent (E : Emitter) :
    (E.stop).stop = E.stop ∧ (E.stop).emitter = none ∧
    (∀ e, (E.stop).listOf e = []) :=
  ⟨rfl, rfl, fun _ => rfl⟩

/-- C9, counterexample to the claim as stated: `stop()` does not release the
identity-translation table to an absent state — after registering listener
`0` for event `"a"` and stopping, the wrapper map still holds its binding
(`stop()` in `src/index.js` only clears `#emitter`, never `#map`). -/
theorem stopKeepsMapCounterexample :
    ((Emitter.new.on "a" 0).stop).map ≠ none := by
  decide

/-- C4: on a live (non-stopped) Emitter, `off(e, f)` for a listener `f` that
was never registered (the identity-translation table holds no wrapper for
`f`) returns normally (the operation is total, hence error-free), changes no
registered listener for any event, and returns the very same instance. -/
theorem offUnregisteredIsNoOp (E : Emitter) (reg : Registry) (e : Event) (f : Nat)
    (hE : E.emitter = some reg) (hf : E.mapGet f = none) :
    E.off e f = E := by
  rw [off_of_live E reg hE, hf]
  show { E with emitter := some reg } = E
  rw [← hE]

/-- C4 witness: removing the never-registered listener `5` from a fresh
Emitter is the identity. -/
theorem offUnregisteredIsNoOpWitness : Emitter.new.off "a" 5 = Emitter.new :=
  offUnregisteredIsNoOp Emitter.new ⟨[]⟩ "a" 5 rfl rfl

/-- C7: on a live Emitter, `emit(e, ...args)` synchronously invokes every
currently-registered listener for `e` exactly once with exactly the emitted
arguments, in the order of the event's listener list, and returns `true` iff
that list is nonempty (iff at least one listener was invoked); moreover the
list order is registration order with `prependListener` inserting at the
front: `on` appends the (memoized) wrapper entry at the tail and
`prependListener` inserts it at the head of the current list. -/
theorem emitInvokesInOrder (E : Emitter) (reg : Registry) (beh : Nat → Args → Option Nat)
    (e : Event) (args : Args) (hE : E.emitter = some reg) :
    (∃ E', E.emit beh e args =
        Except.ok (E', !(reg.get e).isEmpty,
          (reg.get e).map (fun ent => (ent.orig, args)),
          (reg.get e).filterMap (fun ent => beh ent.orig args))) ∧
    (∀ f, (E.on e f).listOf e = reg.get e ++ [⟨(E.wrap f).2, f, false⟩]) ∧
    (∀ f, (E.prependListener e f).listOf e = ⟨(E.wrap f).2, f, false⟩ :: reg.get e) := by
  refine ⟨⟨{ E with emitter := some (reg.emitR beh e args).1 }, ?_⟩, ?_, ?_⟩
  · rw [emit_ok_of_live E reg hE, emitR_bool, emitR_trace, emitR_errs]
  · intro f
    rw [on_of_live E reg hE]
    show (reg.append e ⟨(E.wrap f).2, f, false⟩).get e = _
    rw [Registry.append, Registry.get_set_self]
  · intro f
    rw [prepend_of_live E reg hE]
    show (reg.prepend e ⟨(E.wrap f).2, f, false⟩).get e = _
    rw [Registry.prepend, Registry.get_set_self]

/-- C7 witness: on an Emitter with listener `7` prepended ahead of listener
`3` for `"ready"`, emitting `"ready"` with argument `42` invokes `7` then
`3`, each once with `42`, and returns `true`. -/
theorem emitInvokesInOrderWitness :
    ∃ E', ((Emitter.new.on "ready" 3).prependListener "ready" 7).emit
        (fun _ _ => none) "ready" [42] =
      Except.ok (E', true, [(7, [42]), (3, [42])], []) := by
  obtain ⟨⟨E', h⟩, -, -⟩ :=
    emitInvokesInOrder ((Emitter.new.on "ready" 3).prependListener "ready" 7)
      ⟨[("ready", [⟨1, 7, false⟩, ⟨0, 3, false⟩])]⟩ (fun _ _ => none) "ready" [42] rfl
  exact ⟨E', h⟩

/-- C2: if a listener `fent.orig` registered for `e` throws `err` during
`emit`, then (1) `emit` still returns through its normal channel — no
exception crosses the `emit` boundary, so a `try`-style handler around
`emit` observes nothing; (2) every listener registered for `e` after it is
still invoked with the emitted arguments in the same `emit` call (the trace
is the full snapshot); (3) `err` is scheduled on the deferred-error queue
returned out of band, the model of `setTimeout(() => { throw e })`, which
re-raises it asynchronously after the synchronous call stack has unwound. -/
theorem emitIsolatesThrowingListener (E : Emitter) (reg : Registry)
    (beh : Nat → Args → Option Nat) (e : Event) (args : Args)
    (A : List Entry) (fent : Entry) (B : List Entry) (err : Nat)
    (hE : E.emitter = some reg) (hlist : reg.get e = A ++ fent :: B)
    (hthrow : beh fent.orig args = some err) :
    ∃ E' b tr errs, E.emit beh e args = Except.ok (E', b, tr, errs) ∧
      tr = (A ++ fent :: B).map (fun ent => (ent.orig, args)) ∧
      (∀ g ∈ B, (g.orig, args) ∈ tr) ∧
      err ∈ errs := by
  refine ⟨{ E with emitter := some (reg.emitR beh e args).1 },
    (reg.emitR beh e args).2.1, (reg.emitR beh e args).2.2.1,
    (reg.emitR beh e args).2.2.2, emit_ok_of_live E reg hE beh e args, ?_, ?_, ?_⟩
  · rw [emitR_trace, hlist]
  · intro g hg
    rw [emitR_trace, hlist]
    exact List.mem_map_of_mem _ (by simp [hg])
  · rw [emitR_errs, hlist]
    exact List.mem_filterMap.mpr ⟨fent, by simp, hthrow⟩

/-- C2 witness: with listener `0` (which throws error `99`) registered
before listener `1` for `"x"`, `emit("x")` returns normally, still invokes
`1`, and schedules `99` for deferred re-raise. -/
theorem emitIsolatesThrowingListenerWitness :
    ∃ (E' : Emitter) (b : Bool) (tr : List (Nat × Args)) (errs : List Nat),
      ((Emitter.new.on "x" 0).on "x" 1).emit
          (fun l _ => if l == 0 then some 99 else none) "x" [] =
        Except.ok (E', b, tr, errs) ∧
      tr = ([(⟨0, 0, false⟩ : Entry), ⟨1, 1, false⟩].map (fun ent => (ent.orig, ([] : Args)))) ∧
      (∀ g ∈ [(⟨1, 1, false⟩ : Entry)], (g.orig, ([] : Args)) ∈ tr) ∧
      99 ∈ errs := by
  have h := emitIsolatesThrowingListener ((Emitter.new.on "x" 0).on "x" 1)
    ⟨[("x", [⟨0, 0, false⟩, ⟨1, 1, false⟩])]⟩
    (fun l _ => if l == 0 then some 99 else none) "x" []
    [] ⟨0, 0, false⟩ [⟨1, 1, false⟩] 99 rfl rfl rfl
  simpa using h

/-- C5: on a live Emitter whose list for `e` holds the wrapper entry of `f`
twice (with arbitrary unrelated registrations `A`, `B`, `C` around and
between the two occurrences), one `off(e, f)` call removes exactly the
first (earliest-registered) occurrence, leaving the second registered, so a
subsequent `emit(e, ...)` invokes `f` exactly once. -/
theorem offRemovesFirstOfTwo (E : Emitter) (reg : Registry) (e : Event)
    (f w : Nat) (A B C : List Entry) (beh : Nat → Args → Option Nat) (args : Args)
    (hE : E.emitter = some reg) (hw : E.mapGet f = some w)
    (hlist : reg.get e = A ++ ⟨w, f, false⟩ :: (B ++ ⟨w, f, false⟩ :: C))
    (hA : ∀ x ∈ A, x.wrapper ≠ w ∧ x.orig ≠ f)
    (hB : ∀ x ∈ B, x.orig ≠ f) (hC : ∀ x ∈ C, x.orig ≠ f) :
    (E.off e f).listOf e = A ++ (B ++ ⟨w, f, false⟩ :: C) ∧
    ∃ E' b tr errs, (E.off e f).emit beh e args = Except.ok (E', b, tr, errs) ∧
      tr.countP (fun p => p.1 == f) = 1 := by
  have hoff : (E.off e f).emitter =
      some (reg.set e (removeFirstP (fun x => x.wrapper == w) (reg.get e))) := by
    rw [off_of_live E reg hE, hw]
    rfl
  have hrm : removeFirstP (fun x => x.wrapper == w) (reg.get e) =
      A ++ (B ++ ⟨w, f, false⟩ :: C) := by
    rw [hlist, removeFirstP_append_left _ _ _ (fun a ha => by simp [(hA a ha).1]),
      removeFirstP_cons_true _ _ _ (by simp)]
  constructor
  · simp only [Emitter.listOf, hoff]
    rw [Registry.get_set_self, hrm]
  · refine ⟨_, _, _, _,
      emit_ok_of_live _ (reg.set e (removeFirstP (fun x => x.wrapper == w) (reg.get e)))
        hoff beh e args, ?_⟩
    rw [emitR_trace, List.countP_map, Registry.get_set_self, hrm]
    have hcount : ∀ L : List Entry, (∀ x ∈ L, x.orig ≠ f) →
        L.countP ((fun p => p.1 == f) ∘ fun ent => (ent.orig, args)) = 0 := by
      intro L hL
      exact List.countP_eq_zero.mpr fun a ha => by simp [hL a ha]
    rw [List.countP_append, List.countP_append, List.countP_cons,
      hcount A (fun x hx => (hA x hx).2), hcount B hB, hcount C hC]
    simp

/-- C5 witness: register listener `0` for `"e"`, then listener `1`, then
listener `0` again; `off("e", 0)` removes the first occurrence of `0`'s
wrapper and the next emit invokes `0` exactly once. -/
theorem offRemovesFirstOfTwoWitness :
    ((((Emitter.new.on "e" 0).on "e" 1).on "e" 0).off "e" 0).listOf "e" =
        [] ++ ([⟨1, 1, false⟩] ++ ⟨0, 0, false⟩ :: []) ∧
    ∃ E' b tr errs,
      ((((Emitter.new.on "e" 0).on "e" 1).on "e" 0).off "e" 0).emit
          (fun _ _ => none) "e" [5] = Except.ok (E', b, tr, errs) ∧
      tr.countP (fun p => p.1 == 0) = 1 :=
  offRemovesFirstOfTwo (((Emitter.new.on "e" 0).on "e" 1).on "e" 0)
    ⟨[("e", [⟨0, 0, false⟩, ⟨1, 1, false⟩, ⟨0, 0, false⟩])]⟩ "e" 0 0
    [] [⟨1, 1, false⟩] [] (fun _ _ => none) [5]
    rfl rfl rfl (by simp) (by decide) (by simp)

/-- C10: even though one memoized wrapper `w` is shared when the same
listener `f` is registered under two different events, `off(e1, f)` removes
the wrapper only from `e1`'s listener list — `e2`'s list is unchanged, and a
subsequent `emit(e2, ...)` still invokes `f`. -/
theorem offOnlyAffectsItsEvent (E : Emitter) (reg : Registry) (e1 e2 : Event)
    (f w : Nat) (ent : Entry) (beh : Nat → Args → Option Nat) (args : Args)
    (hE : E.emitter = some reg) (hne : e2 ≠ e1) (hw : E.mapGet f = some w)
    (hent : ent ∈ reg.get e2) (ho : ent.orig = f) :
    (E.off e1 f).listOf e1 = removeFirstP (fun x => x.wrapper == w) (reg.get e1) ∧
    (E.off e1 f).listOf e2 = reg.get e2 ∧
    ∃ E' b tr errs, (E.off e1 f).emit beh e2 args = Except.ok (E', b, tr, errs) ∧
      (f, args) ∈ tr := by
  have hoff : (E.off e1 f).emitter =
      some (reg.set e1 (removeFirstP (fun x => x.wrapper == w) (reg.get e1))) := by
    rw [off_of_live E reg hE, hw]
    rfl
  have hframe : (reg.set e1 (removeFirstP (fun x => x.wrapper == w) (reg.get e1))).get e2 =
      reg.get e2 := Registry.get_set_other _ _ _ _ hne
  refine ⟨?_, ?_, ?_⟩
  · simp only [Emitter.listOf, hoff]
    rw [Registry.get_set_self]
  · simp only [Emitter.listOf, hoff]
    rw [hframe]
  · refine ⟨_, _, _, _,
      emit_ok_of_live _ (reg.set e1 (removeFirstP (fun x => x.wrapper == w) (reg.get e1)))
        hoff beh e2 args, ?_⟩
    rw [emitR_trace, hframe]
    have : (ent.orig, args) ∈ (reg.get e2).map (fun x => (x.orig, args)) :=
      List.mem_map_of_mem _ hent
    rwa [ho] at this

/-- Modelled from the spec: a sequence of emissions of the same event `e`
on the underlying registry, one emission per argument list in order,
collecting the concatenated invocation trace. -/
def Registry.emitSeq (beh : Nat → Args → Option Nat) (e : Event) :
    List Args → Registry → Registry × List (Nat × Args)
  | [], r => (r, [])
  | a :: rest, r =>
      let k := r.emitR beh e a
      let k2 := Registry.emitSeq beh e rest k.1
      (k2.1, k.2.2.1 ++ k2.2)

theorem emitR_trace_countOrig (beh : Nat → Args → Option Nat) (e : Event)
    (args : Args) (r : Registry) (f : Nat) :
    ((r.emitR beh e args).2.2.1).countP (fun p => p.1 == f) =
      (r.get e).countP (fun x => x.orig == f) := by
  rw [emitR_trace, List.countP_map]
  rfl

theorem emitR_get_countOrig_zero (beh : Nat → Args → Option Nat) (e : Event)
    (args : Args) (r : Registry) (f : Nat)
    (h : (r.get e).countP (fun x => x.orig == f) = 0) :
    (((r.emitR beh e args).1).get e).countP (fun x => x.orig == f) = 0 := by
  rw [emitR_get_self]
  exact Nat.le_zero.mp (le_trans ((List.filter_sublist _).countP_le _) (le_of_eq h))

theorem emitSeq_countOrig_zero (beh : Nat → Args → Option Nat) (e : Event) (f : Nat)
    (L : List Args) (r : Registry)
    (h : (r.get e).countP (fun x => x.orig == f) = 0) :
    ((Registry.emitSeq beh e L r).2).countP (fun p => p.1 == f) = 0 ∧
    (((Registry.emitSeq beh e L r).1).get e).countP (fun x => x.orig == f) = 0 := by
  induction L generalizing r with
  | nil => exact ⟨by simp [Registry.emitSeq], h⟩
  | cons a rest ih =>
      have h1 := emitR_get_countOrig_zero beh e a r f h
      obtain ⟨ht, hr⟩ := ih _ h1
      constructor
      · simp only [Registry.emitSeq, List.countP_append]
        rw [emitR_trace_countOrig, h, ht]
      · simp only [Registry.emitSeq]
        exact hr

/-- C8: on a live Emitter whose listener list for `e` holds no registration
of `f`, after `once(e, f)` the listener `f` is invoked exactly once by the
first `emit(e, ...)` and is not invoked by any later emission of `e`,
without any `off` call: for every nonempty sequence of emissions of `e`
(with arbitrary argument lists), `f` is invoked exactly once in total. -/
theorem onceFiresExactlyOnce (E : Emitter) (reg : Registry) (e : Event) (f : Nat)
    (beh : Nat → Args → Option Nat)
    (hE : E.emitter = some reg)
    (hf : (reg.get e).countP (fun x => x.orig == f) = 0) :
    ∃ reg₁, (E.once e f).emitter = some reg₁ ∧
      (∀ args : Args,
        ((reg₁.emitR beh e args).2.2.1).countP (fun p => p.1 == f) = 1) ∧
      (∀ argsL : List Args, argsL ≠ [] →
        ((Registry.emitSeq beh e argsL reg₁).2).countP (fun p => p.1 == f) = 1) := by
  have hlist1 : (reg.append e ⟨(E.wrap f).2, f, true⟩).get e =
      reg.get e ++ [⟨(E.wrap f).2, f, true⟩] := by
    rw [Registry.append, Registry.get_set_self]
  have hcnt1 : ((reg.append e ⟨(E.wrap f).2, f, true⟩).get e).countP
      (fun x => x.orig == f) = 1 := by
    rw [hlist1, List.countP_append, hf]
    simp
  have hafter : ∀ args : Args,
      (((reg.append e ⟨(E.wrap f).2, f, true⟩).emitR beh e args).1.get e).countP
        (fun x => x.orig == f) = 0 := by
    intro args
    rw [emitR_get_self, hlist1, List.filter_append]
    have hsingle : List.filter (fun ent => !ent.once)
        [(⟨(E.wrap f).2, f, true⟩ : Entry)] = [] := rfl
    rw [hsingle, List.append_nil]
    exact Nat.le_zero.mp (le_trans ((List.filter_sublist _).countP_le _) (le_of_eq hf))
  refine ⟨reg.append e ⟨(E.wrap f).2, f, true⟩, ?_, ?_, ?_⟩
  · rw [once_of_live E reg hE]
  · intro args
    rw [emitR_trace_countOrig, hcnt1]
  · intro argsL hne
    cases argsL with
    | nil => exact absurd rfl hne
    | cons a rest =>
        simp only [Registry.emitSeq, List.countP_append]
        rw [emitR_trace_countOrig, hcnt1,
          (emitSeq_countOrig_zero beh e f rest _ (hafter a)).1]

/-- C8 witness: with listener `1` already registered for `"e"`, registering
listener `0` via `once` makes `0` fire exactly once across any nonempty
sequence of emissions of `"e"`; instantiated on a fresh Emitter. -/
theorem onceFiresExactlyOnceWitness :
    ∃ reg₁, ((Emitter.new.on "e" 1).once "e" 0).emitter = some reg₁ ∧
      (∀ args : Args,
        ((reg₁.emitR (fun _ _ => none) "e" args).2.2.1).countP (fun p => p.1 == 0) = 1) ∧
      (∀ argsL : List Args, argsL ≠ [] →
        ((Registry.emitSeq (fun _ _ => none) "e" argsL reg₁).2).countP
          (fun p => p.1 == 0) = 1) :=
  onceFiresExactlyOnce (Emitter.new.on "e" 1) ⟨[("e", [⟨0, 1, false⟩])]⟩ "e" 0
    (fun _ _ => none) rfl (by decide)

/-! ### Wrapper-identity invariant over all reachable Emitter states -/

/-- The states an Emitter instance can actually be in: freshly constructed,
or the result of any public operation applied to a reachable state. -/
inductive Reachable : Emitter → Prop
  | newStep : Reachable Emitter.new
  | onStep (E : Emitter) (e : Event) (l : Nat) : Reachable E → Reachable (E.on e l)
  | onceStep (E : Emitter) (e : Event) (l : Nat) : Reachable E → Reachable (E.once e l)
  | prependStep (E : Emitter) (e : Event) (l : Nat) :
      Reachable E → Reachable (E.prependListener e l)
  | offStep (E : Emitter) (e : Event) (l : Nat) : Reachable E → Reachable (E.off e l)
  | stopStep (E : Emitter) : Reachable E → Reachable E.stop
  | emitStep (E : Emitter) (beh : Nat → Args → Option Nat) (e : Event) (args : Args) :
      Reachable E → Reachable (E.emitState beh e args)

/-- The identity-translation invariant: the wrapper map is present, and
every entry registered anywhere in the registry carries exactly the wrapper
memoized for its original listener. -/
def WrapConsistent (E : Emitter) : Prop :=
  E.map ≠ none ∧ ∀ e ent, ent ∈ E.listOf e → E.mapGet ent.orig = some ent.wrapper

theorem wrap_map_ne_none (E : Emitter) (l : Nat) (h : E.map ≠ none) :
    (E.wrap l).1.map ≠ none := by
  cases hw : E.mapGet l with
  | some w => simpa [Emitter.wrap, hw] using h
  | none =>
      cases hm : E.map with
      | none => exact absurd hm h
      | some m => simp [Emitter.wrap, hw, hm]

theorem wrap_mapGet_self (E : Emitter) (l : Nat) (h : E.map ≠ none) :
    (E.wrap l).1.mapGet l = some (E.wrap l).2 := by
  cases hw : E.mapGet l with
  | some w => simp [Emitter.wrap, hw]
  | none =>
      obtain ⟨m, hm⟩ := Option.ne_none_iff_exists'.mp h
      have hmg : mget m l = none := by
        simpa only [Emitter.mapGet, hm] using hw
      simp [Emitter.wrap, hw, hm, hmg, Emitter.mapGet, mget]

theorem wrap_mapGet_mono (E : Emitter) (l x v : Nat) (h : E.mapGet x = some v) :
    (E.wrap l).1.mapGet x = some v := by
  cases hw : E.mapGet l with
  | some w => simpa [Emitter.wrap, hw] using h
  | none =>
      cases hm : E.map with
      | none => simp [Emitter.mapGet, hm] at h
      | some m =>
          have hx : mget m x = some v := by
            simpa only [Emitter.mapGet, hm] using h
          have hmg : mget m l = none := by
            simpa only [Emitter.mapGet, hm] using hw
          have hlx : l ≠ x := by
            intro hEq
            rw [hEq, hx] at hmg
            cases hmg
          simp [Emitter.wrap, hw, hm, hmg, Emitter.mapGet, mget, hlx, hx]

theorem listOf_of_live (E : Emitter) (reg : Registry) (hE : E.emitter = some reg)
    (e : Event) : E.listOf e = reg.get e := by
  simp [Emitter.listOf, hE]

theorem on_of_stopped (E : Emitter) (hE : E.emitter = none) (e : Event) (l : Nat) :
    E.on e l = E := by
  simp [Emitter.on, hE]

theorem once_of_stopped (E : Emitter) (hE : E.emitter = none) (e : Event) (l : Nat) :
    E.once e l = E := by
  simp [Emitter.once, hE]

theorem prepend_of_stopped (E : Emitter) (hE : E.emitter = none) (e : Event) (l : Nat) :
    E.prependListener e l = E := by
  simp [Emitter.prependListener, hE]

theorem off_of_stopped (E : Emitter) (hE : E.emitter = none) (e : Event) (l : Nat) :
    E.off e l = E := by
  simp [Emitter.off, hE]

theorem emitState_of_stopped (E : Emitter) (hE : E.emitter = none)
    (beh : Nat → Args → Option Nat) (e : Event) (args : Args) :
    E.emitState beh e args = E := by
  simp [Emitter.emitState, Emitter.emit, hE]

theorem emitState_of_live (E : Emitter) (reg : Registry) (hE : E.emitter = some reg)
    (beh : Nat → Args → Option Nat) (e : Event) (args : Args) :
    E.emitState beh e args = { E with emitter := some (reg.emitR beh e args).1 } := by
  simp [Emitter.emitState, emit_ok_of_live E reg hE]

theorem wrapConsistent_insert (E : Emitter) (reg : Registry)
    (hE : E.emitter = some reg) (hwc : WrapConsistent E)
    (e : Event) (l : Nat) (b : Bool) (newList : List Entry)
    (hnew : newList = reg.get e ++ [⟨(E.wrap l).2, l, b⟩] ∨
      newList = ⟨(E.wrap l).2, l, b⟩ :: reg.get e) :
    WrapConsistent { (E.wrap l).1 with emitter := some (reg.set e newList) } := by
  obtain ⟨hm, hcons⟩ := hwc
  constructor
  · exact wrap_map_ne_none E l hm
  · intro e' ent hent
    show (E.wrap l).1.mapGet ent.orig = some ent.wrapper
    have hold : ent ∈ reg.get e' → (E.wrap l).1.mapGet ent.orig = some ent.wrapper := by
      intro hmem
      exact wrap_mapGet_mono E l ent.orig ent.wrapper
        (hcons e' ent (by rw [listOf_of_live E reg hE]; exact hmem))
    have hfresh : ent = ⟨(E.wrap l).2, l, b⟩ →
        (E.wrap l).1.mapGet ent.orig = some ent.wrapper := by
      intro hEq
      rw [hEq]
      exact wrap_mapGet_self E l hm
    by_cases he' : e' = e
    · subst he'
      have hent' : ent ∈ (reg.set e' newList).get e' := hent
      rw [Registry.get_set_self] at hent'
      rcases hnew with h | h <;> rw [h] at hent'
      · rcases List.mem_append.mp hent' with hmem | hmem
        · exact hold hmem
        · exact hfresh (by simpa using hmem)
      · rcases List.mem_cons.mp hent' with hmem | hmem
        · exact hfresh hmem
        · exact hold hmem
    · have hent' : ent ∈ (reg.set e newList).get e' := hent
      rw [Registry.get_set_other _ _ _ _ he'] at hent'
      exact hold hent'

theorem wrapConsistent_on (E : Emitter) (hwc : WrapConsistent E) (e : Event) (l : Nat) :
    WrapConsistent (E.on e l) := by
  cases hE : E.emitter with
  | none => rw [on_of_stopped E hE]; exact hwc
  | some reg =>
      rw [on_of_live E reg hE]
      exact wrapConsistent_insert E reg hE hwc e l false _ (Or.inl rfl)

theorem wrapConsistent_once (E : Emitter) (hwc : WrapConsistent E) (e : Event) (l : Nat) :
    WrapConsistent (E.once e l) := by
  cases hE : E.emitter with
  | none => rw [once_of_stopped E hE]; exact hwc
  | some reg =>
      rw [once_of_live E reg hE]
      exact wrapConsistent_insert E reg hE hwc e l true _ (Or.inl rfl)

theorem wrapConsistent_prepend (E : Emitter) (hwc : WrapConsistent E) (e : Event) (l : Nat) :
    WrapConsistent (E.prependListener e l) := by
  cases hE : E.emitter with
  | none => rw [prepend_of_stopped E hE]; exact hwc
  | some reg =>
      rw [prepend_of_live E reg hE]
      exact wrapConsistent_insert E reg hE hwc e l false _ (Or.inr rfl)

theorem wrapConsistent_off (E : Emitter) (hwc : WrapConsistent E) (e : Event) (l : Nat) :
    WrapConsistent (E.off e l) := by
  cases hE : E.emitter with
  | none => rw [off_of_stopped E hE]; exact hwc
  | some reg =>
      obtain ⟨hm, hcons⟩ := hwc
      rw [off_of_live E reg hE]
      refine ⟨hm, ?_⟩
      intro e' ent hent
      show E.mapGet ent.orig = some ent.wrapper
      cases hw : E.mapGet l with
      | none =>
          have hent' : ent ∈ reg.get e' := by
            have : ent ∈ (reg.removeListener e (E.mapGet l)).get e' := hent
            rwa [hw, Registry.removeListener] at this
          exact hcons e' ent (by rw [listOf_of_live E reg hE]; exact hent')
      | some w =>
          have hent' : ent ∈
              (reg.set e (removeFirstP (fun x => x.wrapper == w) (reg.get e))).get e' := by
            have : ent ∈ (reg.removeListener e (E.mapGet l)).get e' := hent
            rwa [hw] at this
          have hmem : ent ∈ reg.get e' := by
            by_cases he' : e' = e
            · subst he'
              rw [Registry.get_set_self] at hent'
              exact (removeFirstP_sublist _ _).subset hent'
            · rwa [Registry.get_set_other _ _ _ _ he'] at hent'
          exact hcons e' ent (by rw [listOf_of_live E reg hE]; exact hmem)

theorem wrapConsistent_stop (E : Emitter) (hwc : WrapConsistent E) :
    WrapConsistent E.stop := by
  refine ⟨hwc.1, ?_⟩
  intro e ent hent
  cases hent

theorem wrapConsistent_emitState (E : Emitter) (hwc : WrapConsistent E)
    (beh : Nat → Args → Option Nat) (e : Event) (args : Args) :
    WrapConsistent (E.emitState beh e args) := by
  cases hE : E.emitter with
  | none => rw [emitState_of_stopped E hE]; exact hwc
  | some reg =>
      obtain ⟨hm, hcons⟩ := hwc
      rw [emitState_of_live E reg hE]
      refine ⟨hm, ?_⟩
      intro e' ent hent
      show E.mapGet ent.orig = some ent.wrapper
      have hent' : ent ∈ ((reg.emitR beh e args).1).get e' := hent
      have hmem : ent ∈ reg.get e' := by
        by_cases he' : e' = e
        · subst he'
          rw [emitR_get_self] at hent'
          exact List.mem_of_mem_filter hent'
        · rwa [emitR_get_other _ _ _ _ _ he'] at hent'
      exact hcons e' ent (by rw [listOf_of_live E reg hE]; exact hmem)

theorem reachable_wrapConsistent (E : Emitter) (h : Reachable E) :
    WrapConsistent E := by
  induction h with
  | newStep =>
      refine ⟨by simp [Emitter.new], ?_⟩
      intro e ent hent
      simp [Emitter.new, Emitter.listOf, Registry.get, rget] at hent
  | onStep E e l _ ih => exact wrapConsistent_on E ih e l
  | onceStep E e l _ ih => exact wrapConsistent_once E ih e l
  | prependStep E e l _ ih => exact wrapConsistent_prepend E ih e l
  | offStep E e l _ ih => exact wrapConsistent_off E ih e l
  | stopStep E _ ih => exact wrapConsistent_stop E ih
  | emitStep E beh e args _ ih => exact wrapConsistent_emitState E ih beh e args

/-- C6: over every reachable Emitter state, every registered entry carries
exactly the wrapper memoized for its original listener in the
identity-translation table (so every registration — via any mix of `on`,
`once`, `prependListener`, under any events — inserted the memoized
wrapper), and consequently the instance never holds two distinct wrappers
for the same original listener, even across different events. -/
theorem sharedWrapperUnique (E : Emitter) (hR : Reachable E) :
    (∀ e ent, ent ∈ E.listOf e → E.mapGet ent.orig = some ent.wrapper) ∧
    (∀ e₁ e₂ ent₁ ent₂, ent₁ ∈ E.listOf e₁ → ent₂ ∈ E.listOf e₂ →
      ent₁.orig = ent₂.orig → ent₁.wrapper = ent₂.wrapper) := by
  obtain ⟨-, hcons⟩ := reachable_wrapConsistent E hR
  refine ⟨hcons, ?_⟩
  intro e₁ e₂ ent₁ ent₂ h₁ h₂ ho
  have a1 := hcons e₁ ent₁ h₁
  have a2 := hcons e₂ ent₂ h₂
  rw [ho, a2] at a1
  exact Option.some.inj a1.symm

/-- C6 witness: the invariant instantiated on the reachable state obtained
by registering listener `0` under `"a"` via `on` and under `"b"` via
`once`. -/
theorem sharedWrapperUniqueWitness :
    (∀ e ent, ent ∈ ((Emitter.new.on "a" 0).once "b" 0).listOf e →
      ((Emitter.new.on "a" 0).once "b" 0).mapGet ent.orig = some ent.wrapper) ∧
    (∀ e₁ e₂ ent₁ ent₂, ent₁ ∈ ((Emitter.new.on "a" 0).once "b" 0).listOf e₁ →
      ent₂ ∈ ((Emitter.new.on "a" 0).once "b" 0).listOf e₂ →
      ent₁.orig = ent₂.orig → ent₁.wrapper = ent₂.wrapper) :=
  sharedWrapperUnique ((Emitter.new.on "a" 0).once "b" 0)
    (Reachable.onceStep _ "b" 0 (Reachable.onStep _ "a" 0 Reachable.newStep))

/-- C10 witness: listener `0` registered under both `"a"` and `"b"` (one
shared wrapper); `off("a", 0)` empties `"a"`'s list, leaves `"b"`'s list
unchanged, and `emit("b")` still invokes `0`. -/
theorem offOnlyAffectsItsEventWitness :
    (((Emitter.new.on "a" 0).on "b" 0).off "a" 0).listOf "a" =
        removeFirstP (fun x => x.wrapper == 0) [⟨0, 0, false⟩] ∧
    (((Emitter.new.on "a" 0).on "b" 0).off "a" 0).listOf "b" = [⟨0, 0, false⟩] ∧
    ∃ E' b tr errs,
      (((Emitter.new.on "a" 0).on "b" 0).off "a" 0).emit
          (fun _ _ => none) "b" [] = Except.ok (E', b, tr, errs) ∧
      (0, ([] : Args)) ∈ tr :=
  offOnlyAffectsItsEvent ((Emitter.new.on "a" 0).on "b" 0)
    ⟨[("a", [⟨0, 0, false⟩]), ("b", [⟨0, 0, false⟩])]⟩ "a" "b" 0 0
    ⟨0, 0, false⟩ (fun _ _ => none) [] rfl (by decide) rfl (by decide) rfl
